import Mathlib

/-!
# MRG32k3a (src/src/reference.c): shallow embedding and verified properties

The C source keeps the generator in a heap record of six words and advances it
with `draw`, which works on C doubles.  On the states the properties below are
about (register A words in `[0, m1)`, register B words in `[0, m2)`) every value
`draw` handles is an integer of magnitude far below `2^53`, so the embedding uses
exact integer arithmetic (`Int`): the products, differences and `k * m` are exact
in a double, and the conversion `k = p / m` to `long` is the quotient truncated
toward zero (`Int.tdiv`): the exact quotient has magnitude below `2^21`, a
non-integral quotient is at least `1 / m > 2^-32` away from every integer, and the
rounding of the double division moves it by at most `2^-33`, so rounding never
crosses an integer (`truncToLong_rounded_quot`, `double_arithmetic_exact`).  The
conversion of the returned double to `unsigned` is kept explicit as `toUnsigned`.

`init` and `draw` below act on one record.  `Heap`, `initHeap` and `drawHeap` keep the
memory behind the pointers explicit, statement by statement, and agree with the
functions on one record (`initHeap_eq`, `drawHeap_eq`).
-/

namespace MRG32k3a

/-! ## Constants (reference.c, lines 7-12) -/

/-- Modulus of the first component, `#define m1 4294967087.0`. -/
def m1 : Int := 4294967087

/-- Modulus of the second component, `#define m2 4294944443.0`. -/
def m2 : Int := 4294944443

/-- Multiplier `#define a12 1403580.0`. -/
def a12 : Int := 1403580

/-- Multiplier `#define a13n 810728.0`. -/
def a13n : Int := 810728

/-- Multiplier `#define a21 527612.0`. -/
def a21 : Int := 527612

/-- Multiplier `#define a23n 1370589.0`. -/
def a23n : Int := 1370589

/-! ## State -/

/-- Modelled from the spec: the record `state` is declared in `reference.h`, which is not
part of the sources at hand; the spec describes it as six integer registers, the fields
`s10 s11 s12` (register A, oldest to newest) and `s20 s21 s22` (register B) that
`init` and `draw` access. -/
structure State where
  s10 : Int
  s11 : Int
  s12 : Int
  s20 : Int
  s21 : Int
  s22 : Int
deriving DecidableEq, Repr

/-- The function `init` (reference.c, lines 14-24): every field is assigned 12345. -/
def init : State :=
  { s10 := 12345, s11 := 12345, s12 := 12345, s20 := 12345, s21 := 12345, s22 := 12345 }

/-! ## One step -/

/-- The conversion `k = p / m` of a double quotient to `long`: truncation toward zero. -/
def quotLong (p m : Int) : Int := Int.tdiv p m

/-- The statement sequence `k = p / m; p -= k * m; if (p < 0) p += m;`
(reference.c, lines 31 and 35), returning the final value of `p`. -/
def reduce (p m : Int) : Int :=
  let k := quotLong p m
  let p := p - k * m
  if p < 0 then p + m else p

/-- Line 30: `p1 = a12 * s->s11 - a13n * s->s10`. -/
def rawP1 (s : State) : Int := a12 * s.s11 - a13n * s.s10

/-- Line 34: `p2 = a21 * s->s22 - a23n * s->s20`. -/
def rawP2 (s : State) : Int := a21 * s.s22 - a23n * s.s20

/-- Line 32: `s->s10 = s->s11; s->s11 = s->s12; s->s12 = p1;`, one assignment after
the other. -/
def shiftA (s : State) (p1 : Int) : State :=
  let s := { s with s10 := s.s11 }
  let s := { s with s11 := s.s12 }
  { s with s12 := p1 }

/-- Line 36: `s->s20 = s->s21; s->s21 = s->s22; s->s22 = p2;`, one assignment after
the other. -/
def shiftB (s : State) (p2 : Int) : State :=
  let s := { s with s20 := s.s21 }
  let s := { s with s21 := s.s22 }
  { s with s22 := p2 }

/-- Lines 39-40: the double handed to `return`, before its conversion to `unsigned`. -/
def combine (p1 p2 : Int) : Int :=
  if p1 ≤ p2 then p1 - p2 + m1 else p1 - p2

/-- Conversion of the returned double to a 32-bit `unsigned`. -/
def toUnsigned (v : Int) : Nat := (v % 2 ^ 32).toNat

/-- The body of `draw` up to the `return` (reference.c, lines 28-40): the double that is
about to be returned, and the state as the call leaves it. -/
def drawCore (s : State) : Int × State :=
  let p1 := rawP1 s
  let p1 := reduce p1 m1
  let s := shiftA s p1
  let p2 := rawP2 s
  let p2 := reduce p2 m2
  let s := shiftB s p2
  (combine p1 p2, s)

/-- The value `draw` computes for its result, as a double (an integer here). -/
def drawValue (s : State) : Int := (drawCore s).1

/-- The state after a call of `draw`. -/
def drawState (s : State) : State := (drawCore s).2

/-- The function `draw` (reference.c, lines 26-41): the `unsigned` it returns together
with the mutated state. -/
def draw (s : State) : Nat × State := (toUnsigned (drawValue s), drawState s)

/-- The state after `n` successive calls of `draw`. -/
def drawN : Nat → State → State
  | 0, s => s
  | n + 1, s => (draw (drawN n s)).2

/-- The value returned by the call number `n + 1` of `draw`, counting from state `s`. -/
def output (n : Nat) (s : State) : Nat := (draw (drawN n s)).1

/-! ## The heap: generator records behind pointers

`init` returns a pointer to a record obtained from `malloc`, and `draw` reads and writes
the record through the pointer it is given.  The definitions below keep that memory
explicit, so that several generator instances live side by side. -/

/-- The memory that holds generator records: `cells a` is the record stored at address
`a` (arbitrary contents while `a` has not been handed out), and `next` is the first
address that `malloc` has not handed out yet. -/
structure Heap where
  cells : Nat → State
  next : Nat

/-- The call `malloc(sizeof(state))` of line 16: it hands out a fresh address and leaves
the contents found there as they are. The source does not test the result, so no failure
is modelled. -/
def malloc (h : Heap) : Nat × Heap := (h.next, { h with next := h.next + 1 })

/-- A read through the pointer `s`. -/
def load (h : Heap) (s : Nat) : State := h.cells s

/-- A write through the pointer `s`: the record at `s` is replaced. -/
def store (h : Heap) (s : Nat) (r : State) : Heap :=
  { h with cells := Function.update h.cells s r }

/-- The function `init` on the heap (reference.c, lines 14-24), statement by statement:
the pointer it returns, and the heap it leaves. -/
def initHeap (h : Heap) : Nat × Heap :=
  let s := (malloc h).1
  let h := (malloc h).2
  let h := store h s { load h s with s10 := 12345 }
  let h := store h s { load h s with s11 := 12345 }
  let h := store h s { load h s with s12 := 12345 }
  let h := store h s { load h s with s20 := 12345 }
  let h := store h s { load h s with s21 := 12345 }
  let h := store h s { load h s with s22 := 12345 }
  (s, h)

/-- The function `draw` on the heap (reference.c, lines 26-41), statement by statement:
every read and write goes through the pointer `s`; the locals `k`, `p1`, `p2` live in the
call. Returns the `unsigned` result and the heap the call leaves. -/
def drawHeap (s : Nat) (h : Heap) : Nat × Heap :=
  let p1 := a12 * (load h s).s11 - a13n * (load h s).s10
  let p1 := reduce p1 m1
  let h := store h s { load h s with s10 := (load h s).s11 }
  let h := store h s { load h s with s11 := (load h s).s12 }
  let h := store h s { load h s with s12 := p1 }
  let p2 := a21 * (load h s).s22 - a23n * (load h s).s20
  let p2 := reduce p2 m2
  let h := store h s { load h s with s20 := (load h s).s21 }
  let h := store h s { load h s with s21 := (load h s).s22 }
  let h := store h s { load h s with s22 := p2 }
  (toUnsigned (combine p1 p2), h)

/-- A caller creating two generators, `a = init(); b = init();`: both pointers and the
heap afterwards. -/
def twoInstances (h : Heap) : Nat × Nat × Heap :=
  let r1 := initHeap h
  let r2 := initHeap r1.2
  (r1.1, r2.1, r2.2)

/-- One lockstep round of that caller, `x = draw(a); y = draw(b);`: the two results and
the heap afterwards. -/
def lockstepRound (a b : Nat) (h : Heap) : (Nat × Nat) × Heap :=
  let r1 := drawHeap a h
  let r2 := drawHeap b r1.2
  ((r1.1, r2.1), r2.2)

/-- The heap after `n` lockstep rounds. -/
def lockstep (a b : Nat) : Nat → Heap → Heap
  | 0, h => h
  | n + 1, h => (lockstepRound a b (lockstep a b n h)).2

/-! ## The floor-division remainder the spec contrasts the reduction with -/

/-- Floor-division modulo, from the spec's words: the remainder `p - floor(p / m) * m`
left by the quotient rounded toward minus infinity. -/
def floorMod (p m : Int) : Int := p - Int.fdiv p m * m

/-! ## Ranges -/

/-- Register A words lie in `[0, m1)`. -/
def InRangeA (s : State) : Prop :=
  (0 ≤ s.s10 ∧ s.s10 < m1) ∧ (0 ≤ s.s11 ∧ s.s11 < m1) ∧ (0 ≤ s.s12 ∧ s.s12 < m1)

/-- Register B words lie in `[0, m2)`. -/
def InRangeB (s : State) : Prop :=
  (0 ≤ s.s20 ∧ s.s20 < m2) ∧ (0 ≤ s.s21 ∧ s.s21 < m2) ∧ (0 ≤ s.s22 ∧ s.s22 < m2)

/-- Both registers are in range. -/
def InRange (s : State) : Prop := InRangeA s ∧ InRangeB s

instance (s : State) : Decidable (InRangeA s) := by unfold InRangeA; infer_instance
instance (s : State) : Decidable (InRangeB s) := by unfold InRangeB; infer_instance
instance (s : State) : Decidable (InRange s) := by unfold InRange; infer_instance

/-- All three words of register A are zero. -/
def AllZeroA (s : State) : Prop := s.s10 = 0 ∧ s.s11 = 0 ∧ s.s12 = 0

/-- All three words of register B are zero. -/
def AllZeroB (s : State) : Prop := s.s20 = 0 ∧ s.s21 = 0 ∧ s.s22 = 0

instance (s : State) : Decidable (AllZeroA s) := by unfold AllZeroA; infer_instance
instance (s : State) : Decidable (AllZeroB s) := by unfold AllZeroB; infer_instance

/-! ## Double arithmetic, as far as `draw` depends on it -/

/-- Conversion of a double to `long` (the assignment `k = p / m`): the fractional part is
discarded, i.e. the value is truncated toward zero. -/
def truncToLong (q : ℚ) : Int := if 0 ≤ q then ⌊q⌋ else ⌈q⌉

/-- What the source relies on from IEEE 754 binary64 arithmetic in round-to-nearest:
`y` is an admissible result for an operation whose exact value is `x` when the relative
error is at most `2^-53`, and an exact value that is an integer of magnitude at most
`2^53` (hence representable) is delivered exactly. -/
def RoundsTo (x y : ℚ) : Prop :=
  |y - x| * 2 ^ 53 ≤ |x| ∧ ∀ n : Int, x = n → |n| ≤ 2 ^ 53 → y = x

/-! ## Facts about the reduction -/

/-- The truncated remainder stays above `-b`. -/
theorem neg_lt_tmod (a : Int) {b : Int} (hb : 0 < b) : -b < Int.tmod a b := by
  rcases Int.le_total 0 a with ha | ha
  · have := Int.tmod_nonneg b ha
    omega
  · have h1 : Int.tmod (-a) b < b := Int.tmod_lt_of_pos (-a) hb
    have h2 : Int.tmod (-a) b = -(Int.tmod a b) := by
      simp [Int.tmod_def]
      ring
    omega

/-- After `p -= k * m` the variable holds the truncated remainder. -/
theorem sub_quotLong_mul (p m : Int) : p - quotLong p m * m = Int.tmod p m := by
  rw [Int.tmod_def, quotLong, Int.mul_comm]

/-- The reduced value is never negative. -/
theorem reduce_nonneg (p : Int) {m : Int} (hm : 0 < m) : 0 ≤ reduce p m := by
  have h1 := neg_lt_tmod p hm
  have h2 := sub_quotLong_mul p m
  unfold reduce
  simp only [h2]
  split <;> omega

/-- The reduced value is below the modulus. -/
theorem reduce_lt (p : Int) {m : Int} (hm : 0 < m) : reduce p m < m := by
  have h1 := Int.tmod_lt_of_pos p hm
  have h2 := sub_quotLong_mul p m
  unfold reduce
  simp only [h2]
  split <;> omega

/-- The reduced value differs from `p` by a multiple of the modulus. -/
theorem reduce_congr (p m : Int) : ∃ c : Int, p = reduce p m + c * m := by
  unfold reduce
  simp only
  split
  · exact ⟨quotLong p m - 1, by ring⟩
  · exact ⟨quotLong p m, by ring⟩

/-- The reduced value is the Euclidean remainder. -/
theorem reduce_eq_emod (p : Int) {m : Int} (hm : 0 < m) : reduce p m = p % m := by
  have h0 := reduce_nonneg p hm
  have h1 := reduce_lt p hm
  obtain ⟨c, hc⟩ := reduce_congr p m
  conv_rhs => rw [hc]
  rw [Int.add_mul_emod_self, Int.emod_eq_of_lt h0 h1]

theorem m1_pos : 0 < m1 := by decide

theorem m2_pos : 0 < m2 := by decide

/-- A double in `[0, 2^32)` converts to `unsigned` unchanged. -/
theorem toUnsigned_of_lt {v : Int} (h0 : 0 ≤ v) (h1 : v < 2 ^ 32) :
    (toUnsigned v : Int) = v := by
  unfold toUnsigned
  rw [Int.emod_eq_of_lt h0 h1, Int.toNat_of_nonneg h0]

/-- The newest word of register A after `draw`. -/
theorem drawState_s12 (s : State) : (drawState s).s12 = reduce (rawP1 s) m1 := rfl

/-- The newest word of register B after `draw`. -/
theorem drawState_s22 (s : State) : (drawState s).s22 = reduce (rawP2 s) m2 := rfl

/-- The returned double, in terms of the two freshly written words. -/
theorem drawValue_eq (s : State) :
    drawValue s = combine (drawState s).s12 (drawState s).s22 := rfl

/-- The returned double lies in `[1, m1]`. -/
theorem drawValue_bounds (s : State) : 1 ≤ drawValue s ∧ drawValue s ≤ m1 := by
  have a0 := reduce_nonneg (rawP1 s) m1_pos
  have a1 := reduce_lt (rawP1 s) m1_pos
  have b0 := reduce_nonneg (rawP2 s) m2_pos
  have b1 := reduce_lt (rawP2 s) m2_pos
  rw [drawValue_eq, drawState_s12, drawState_s22]
  unfold combine
  simp only [m1, m2] at *
  split <;> omega

/-- The `unsigned` that `draw` returns is the double it computed. -/
theorem draw_fst_eq (s : State) : ((draw s).1 : Int) = drawValue s := by
  have h := drawValue_bounds s
  have hm : m1 < 2 ^ 32 := by decide
  exact toUnsigned_of_lt (by omega) (by omega)

/-- One call of `draw` keeps both registers in range. -/
theorem inRange_drawState (s : State) (h : InRange s) : InRange (drawState s) := by
  obtain ⟨⟨_, hA1, hA2⟩, ⟨_, hB1, hB2⟩⟩ := h
  exact ⟨⟨hA1, hA2, reduce_nonneg _ m1_pos, reduce_lt _ m1_pos⟩,
    ⟨hB1, hB2, reduce_nonneg _ m2_pos, reduce_lt _ m2_pos⟩⟩

/-- Any number of calls of `draw` keeps both registers in range. -/
theorem inRange_drawN (n : Nat) (s : State) (h : InRange s) : InRange (drawN n s) := by
  induction n with
  | zero => exact h
  | succ k ih => exact inRange_drawState _ ih

/-- For a positive modulus the floor remainder is the Euclidean remainder. -/
theorem floorMod_eq_emod (p : Int) {m : Int} (hm : 0 < m) : floorMod p m = p % m := by
  unfold floorMod
  rw [← Int.fmod_eq_emod p hm.le, Int.fmod_def, Int.mul_comm]

/-- The reduction agrees with the floor remainder for every `p`. -/
theorem reduce_eq_floorMod (p : Int) {m : Int} (hm : 0 < m) : reduce p m = floorMod p m := by
  rw [reduce_eq_emod p hm, floorMod_eq_emod p hm]

/-- When the multiplier is coprime to the modulus, `-(a * x)` reduces to zero only for
`x = 0` (among the `x` in range). -/
theorem eq_zero_of_reduce_eq_zero {a x m : Int} (hm : 0 < m) (hg : Int.gcd m a = 1)
    (hx0 : 0 ≤ x) (hx1 : x < m) (h : reduce (-(a * x)) m = 0) : x = 0 := by
  rw [reduce_eq_emod _ hm] at h
  have h1 : m ∣ a * x := (Int.dvd_neg).mp (Int.dvd_of_emod_eq_zero h)
  have h2 : m ∣ x := Int.dvd_of_dvd_mul_right_of_gcd_one h1 hg
  exact Int.eq_zero_of_dvd_of_nonneg_of_lt hx0 hx1 h2

/-- Register A cannot become all-zero in one call unless it already was. -/
theorem not_allZeroA_drawState (s : State) (h : InRangeA s) (hz : ¬ AllZeroA s) :
    ¬ AllZeroA (drawState s) := by
  rintro ⟨h10, h11, h12⟩
  have e11 : s.s11 = 0 := h10
  have e12 : s.s12 = 0 := h11
  have hr : reduce (-(a13n * s.s10)) m1 = 0 := by
    have : rawP1 s = -(a13n * s.s10) := by
      unfold rawP1
      rw [e11]
      ring
    rw [← this]
    exact h12
  have e10 : s.s10 = 0 :=
    eq_zero_of_reduce_eq_zero m1_pos (by decide) h.1.1 h.1.2 hr
  exact hz ⟨e10, e11, e12⟩

/-- Register B cannot become all-zero in one call unless it already was. -/
theorem not_allZeroB_drawState (s : State) (h : InRangeB s) (hz : ¬ AllZeroB s) :
    ¬ AllZeroB (drawState s) := by
  rintro ⟨h20, h21, h22⟩
  have e21 : s.s21 = 0 := h20
  have e22 : s.s22 = 0 := h21
  have hr : reduce (-(a23n * s.s20)) m2 = 0 := by
    have : rawP2 s = -(a23n * s.s20) := by
      unfold rawP2
      rw [e22]
      ring
    rw [← this]
    exact h22
  have e20 : s.s20 = 0 :=
    eq_zero_of_reduce_eq_zero m2_pos (by decide) h.1.1 h.1.2 hr
  exact hz ⟨e20, e21, e22⟩

/-- Starting in range with neither register all-zero, no number of calls makes a
register all-zero. -/
theorem not_allZero_drawN (n : Nat) (s : State) (h : InRange s)
    (hA : ¬ AllZeroA s) (hB : ¬ AllZeroB s) :
    ¬ AllZeroA (drawN n s) ∧ ¬ AllZeroB (drawN n s) := by
  induction n with
  | zero => exact ⟨hA, hB⟩
  | succ k ih =>
    have hr := inRange_drawN k s h
    exact ⟨not_allZeroA_drawState _ hr.1 ih.1, not_allZeroB_drawState _ hr.2 ih.2⟩

/-! ## Fixed points and injectivity -/

/-- Zero reduces to zero, whatever the modulus. -/
theorem reduce_zero (m : Int) : reduce 0 m = 0 := by
  simp [reduce, quotLong]

/-- An all-zero register A stays all-zero over one call. -/
theorem allZeroA_drawState (s : State) (h : AllZeroA s) : AllZeroA (drawState s) := by
  obtain ⟨h0, h1, h2⟩ := h
  refine ⟨h1, h2, ?_⟩
  rw [drawState_s12]
  have : rawP1 s = 0 := by simp [rawP1, h0, h1]
  rw [this, reduce_zero]

/-- An all-zero register B stays all-zero over one call. -/
theorem allZeroB_drawState (s : State) (h : AllZeroB s) : AllZeroB (drawState s) := by
  obtain ⟨h0, h1, h2⟩ := h
  refine ⟨h1, h2, ?_⟩
  rw [drawState_s22]
  have : rawP2 s = 0 := by simp [rawP2, h0, h2]
  rw [this, reduce_zero]

/-- Two in-range words whose multiples by a multiplier coprime to the modulus reduce
to the same value are equal. -/
theorem eq_of_reduce_eq {a c x y m : Int} (hm : 0 < m) (hg : Int.gcd m a = 1)
    (hx0 : 0 ≤ x) (hx1 : x < m) (hy0 : 0 ≤ y) (hy1 : y < m)
    (h : reduce (c - a * x) m = reduce (c - a * y) m) : x = y := by
  rw [reduce_eq_emod _ hm, reduce_eq_emod _ hm] at h
  have h1 : m ∣ (c - a * x) - (c - a * y) :=
    Int.dvd_of_emod_eq_zero ((Int.emod_eq_emod_iff_emod_sub_eq_zero).mp h)
  have h2 : m ∣ a * (y - x) := by
    have e : (c - a * x) - (c - a * y) = a * (y - x) := by ring
    rwa [e] at h1
  have h3 : m ∣ y - x := Int.dvd_of_dvd_mul_right_of_gcd_one h2 hg
  obtain ⟨k, hk⟩ := h3
  have hk0 : k = 0 := by
    by_contra hne
    rcases lt_or_gt_of_ne hne with hlt | hgt
    · have : m * k ≤ m * (-1) := Int.mul_le_mul_of_nonneg_left (by omega) hm.le
      omega
    · have : m * 1 ≤ m * k := Int.mul_le_mul_of_nonneg_left (by omega) hm.le
      omega
  rw [hk0, Int.mul_zero] at hk
  omega

/-- The state transition is injective on in-range states. -/
theorem drawState_injective (s t : State) (hs : InRange s) (ht : InRange t)
    (h : drawState s = drawState t) : s = t := by
  have e11 : s.s11 = t.s11 := congrArg State.s10 h
  have e12 : s.s12 = t.s12 := congrArg State.s11 h
  have e21 : s.s21 = t.s21 := congrArg State.s20 h
  have e22 : s.s22 = t.s22 := congrArg State.s21 h
  have eA : reduce (rawP1 s) m1 = reduce (rawP1 t) m1 := congrArg State.s12 h
  have eB : reduce (rawP2 s) m2 = reduce (rawP2 t) m2 := congrArg State.s22 h
  have e10 : s.s10 = t.s10 := by
    unfold rawP1 at eA
    rw [e11] at eA
    exact eq_of_reduce_eq m1_pos (by decide) hs.1.1.1 hs.1.1.2 ht.1.1.1 ht.1.1.2 eA
  have e20 : s.s20 = t.s20 := by
    unfold rawP2 at eB
    rw [e22] at eB
    exact eq_of_reduce_eq m2_pos (by decide) hs.2.1.1 hs.2.1.2 ht.2.1.1 ht.2.1.2 eB
  cases s
  cases t
  simp only [State.mk.injEq]
  exact ⟨e10, e11, e12, e20, e21, e22⟩

/-- A word `x` in range that is reproduced by the reduction of `c * x` is zero when
`c - 1` is coprime to the modulus. -/
theorem eq_zero_of_reduce_mul_eq {c x m : Int} (hm : 0 < m) (hg : Int.gcd m (c - 1) = 1)
    (hx0 : 0 ≤ x) (hx1 : x < m) (h : reduce (c * x) m = x) : x = 0 := by
  rw [reduce_eq_emod _ hm] at h
  have h1 : m ∣ c * x - x := by
    have h2 : (c * x) % m = x % m := by rw [Int.emod_eq_of_lt hx0 hx1]; exact h
    exact Int.dvd_of_emod_eq_zero ((Int.emod_eq_emod_iff_emod_sub_eq_zero).mp h2)
  have h2 : m ∣ (c - 1) * x := by
    have e : c * x - x = (c - 1) * x := by ring
    rwa [e] at h1
  have h3 : m ∣ x := Int.dvd_of_dvd_mul_right_of_gcd_one h2 hg
  exact Int.eq_zero_of_dvd_of_nonneg_of_lt hx0 hx1 h3

/-- An in-range state that one call leaves unchanged is all-zero in both registers. -/
theorem fixed_point_allZero (s : State) (hs : InRange s) (h : drawState s = s) :
    AllZeroA s ∧ AllZeroB s := by
  have e10 : s.s11 = s.s10 := congrArg State.s10 h
  have e11 : s.s12 = s.s11 := congrArg State.s11 h
  have e20 : s.s21 = s.s20 := congrArg State.s20 h
  have e21 : s.s22 = s.s21 := congrArg State.s21 h
  have eA : reduce (rawP1 s) m1 = s.s12 := congrArg State.s12 h
  have eB : reduce (rawP2 s) m2 = s.s22 := congrArg State.s22 h
  have zA : s.s10 = 0 := by
    have e : rawP1 s = (a12 - a13n) * s.s10 := by
      unfold rawP1
      rw [e10]
      ring
    rw [e, e11, e10] at eA
    exact eq_zero_of_reduce_mul_eq m1_pos (by decide) hs.1.1.1 hs.1.1.2 eA
  have zB : s.s20 = 0 := by
    have e : rawP2 s = (a21 - a23n) * s.s20 := by
      unfold rawP2
      rw [e21, e20]
      ring
    rw [e, e21, e20] at eB
    exact eq_zero_of_reduce_mul_eq m2_pos (by decide) hs.2.1.1 hs.2.1.2 eB
  exact ⟨⟨zA, by omega, by omega⟩, ⟨zB, by omega, by omega⟩⟩

/-! ## Runs, finiteness and the double quotient -/

/-- Composition of runs: `a + b` calls are `a` calls followed by `b` calls. -/
theorem drawN_add (a b : Nat) (s : State) : drawN (a + b) s = drawN b (drawN a s) := by
  induction b with
  | zero => rfl
  | succ k ih =>
    show (draw (drawN (a + k) s)).2 = (draw (drawN k (drawN a s))).2
    rw [ih]

/-- The six words of a state, as a tuple. -/
theorem words_injective :
    Function.Injective
      (fun s : State => (s.s10, s.s11, s.s12, s.s20, s.s21, s.s22)) := by
  intro s t h
  cases s
  cases t
  simp only [Prod.mk.injEq] at h
  simp only [State.mk.injEq]
  exact h

/-- There are finitely many in-range states. -/
theorem finite_inRange : {s : State | InRange s}.Finite := by
  have hbox : ((Set.Icc (0 : Int) m1) ×ˢ (Set.Icc (0 : Int) m1) ×ˢ (Set.Icc (0 : Int) m1) ×ˢ
      (Set.Icc (0 : Int) m2) ×ˢ (Set.Icc (0 : Int) m2) ×ˢ (Set.Icc (0 : Int) m2)).Finite :=
    (Set.finite_Icc _ _).prod ((Set.finite_Icc _ _).prod ((Set.finite_Icc _ _).prod
      ((Set.finite_Icc _ _).prod ((Set.finite_Icc _ _).prod (Set.finite_Icc _ _)))))
  refine (hbox.preimage (words_injective.injOn)).subset ?_
  rintro s ⟨⟨⟨a0, a1⟩, ⟨a2, a3⟩, ⟨a4, a5⟩⟩, ⟨⟨b0, b1⟩, ⟨b2, b3⟩, ⟨b4, b5⟩⟩⟩
  simp only [Set.mem_preimage, Set.mem_prod, Set.mem_Icc]
  exact ⟨⟨a0, a1.le⟩, ⟨a2, a3.le⟩, ⟨a4, a5.le⟩, ⟨b0, b1.le⟩, ⟨b2, b3.le⟩, ⟨b4, b5.le⟩⟩

/-- Rounding an exact value to itself is admissible. -/
theorem roundsTo_self (x : ℚ) : RoundsTo x x := by
  refine ⟨?_, fun _ _ _ => rfl⟩
  rw [sub_self, abs_zero, zero_mul]
  exact abs_nonneg x

/-- The truncated remainder of a non-positive number is non-positive. -/
theorem tmod_nonpos {a : Int} (b : Int) (ha : a ≤ 0) : Int.tmod a b ≤ 0 := by
  have h1 : 0 ≤ Int.tmod (-a) b := Int.tmod_nonneg b (by omega)
  have h2 : Int.tmod (-a) b = -(Int.tmod a b) := by
    simp [Int.tmod_def]
    ring
  omega

/-- The truncated quotient of a non-positive number by a non-negative one is
non-positive. -/
theorem tdiv_nonpos_of_nonpos {a b : Int} (ha : a ≤ 0) (hb : 0 ≤ b) : Int.tdiv a b ≤ 0 := by
  have h1 : 0 ≤ Int.tdiv (-a) b := Int.tdiv_nonneg (by omega) hb
  rw [Int.neg_tdiv] at h1
  omega

/-- The product `k * m` lies between 0 and `p`, and so does `k`. -/
theorem quotLong_bounds (p : Int) {m : Int} (hm : 0 < m) :
    |quotLong p m * m| ≤ |p| ∧ |quotLong p m| ≤ |p| := by
  have hr := sub_quotLong_mul p m
  have hkm : |quotLong p m| ≤ |quotLong p m * m| := by
    rw [abs_mul, abs_of_pos hm]
    exact le_mul_of_one_le_right (abs_nonneg _) hm
  have h1 : |quotLong p m * m| ≤ |p| := by
    rcases Int.le_total 0 p with hp | hp
    · have r0 := Int.tmod_nonneg m hp
      have k0 : 0 ≤ quotLong p m := Int.tdiv_nonneg hp hm.le
      have km0 : 0 ≤ quotLong p m * m := Int.mul_nonneg k0 hm.le
      rw [abs_of_nonneg km0, abs_of_nonneg hp]
      omega
    · have r0 := tmod_nonpos m hp
      have k0 : quotLong p m ≤ 0 := tdiv_nonpos_of_nonpos hp hm.le
      have km0 : quotLong p m * m ≤ 0 := Int.mul_nonpos_of_nonpos_of_nonneg k0 hm.le
      rw [abs_of_nonpos km0, abs_of_nonpos hp]
      omega
  exact ⟨h1, hkm.trans h1⟩

/-- The rounded double quotient `p / m` of two integers, `|p| < 2^53` and `m > 0`,
converts to the `long` that exact truncating division gives. -/
theorem truncToLong_rounded_quot (p : Int) {m : Int} (hm : 0 < m) (hp : |p| < 2 ^ 53)
    (y : ℚ) (h : RoundsTo ((p : ℚ) / (m : ℚ)) y) : truncToLong y = quotLong p m := by
  obtain ⟨herr, hexact⟩ := h
  have hM : (0 : ℚ) < (m : ℚ) := by exact_mod_cast hm
  have hdecomp : m * Int.tdiv p m + Int.tmod p m = p := Int.tdiv_add_tmod p m
  have hrlt := Int.tmod_lt_of_pos p hm
  have hrgt := neg_lt_tmod p hm
  have hdq : (m : ℚ) * (Int.tdiv p m : ℚ) + (Int.tmod p m : ℚ) = (p : ℚ) := by
    exact_mod_cast hdecomp
  have hxM : (p : ℚ) / (m : ℚ) * (m : ℚ) = (p : ℚ) := div_mul_cancel₀ _ hM.ne'
  have hpq : |(p : ℚ)| < 2 ^ 53 := by exact_mod_cast hp
  have habsx : |(p : ℚ) / (m : ℚ)| * (m : ℚ) = |(p : ℚ)| := by
    rw [abs_div, abs_of_pos hM, div_mul_cancel₀ _ hM.ne']
  have hsmall : |(y - (p : ℚ) / (m : ℚ)) * (m : ℚ)| < 1 := by
    rw [abs_mul, abs_of_pos hM]
    have h1 : |y - (p : ℚ) / (m : ℚ)| * 2 ^ 53 * (m : ℚ) ≤ |(p : ℚ)| := by
      rw [← habsx]
      exact mul_le_mul_of_nonneg_right herr hM.le
    have h2 : 0 ≤ |y - (p : ℚ) / (m : ℚ)| * (m : ℚ) :=
      mul_nonneg (abs_nonneg _) hM.le
    nlinarith
  have hyM : y * (m : ℚ) = (y - (p : ℚ) / (m : ℚ)) * (m : ℚ) + (p : ℚ) := by
    rw [sub_mul, hxM]
    ring
  obtain ⟨hlo, hhi⟩ := abs_lt.mp hsmall
  unfold quotLong
  rcases lt_trichotomy (Int.tmod p m) 0 with hr | hr | hr
  · -- negative remainder: `p` is negative and `y` lies strictly between `t - 1` and `t`
    have hpneg : p < 0 := by
      by_contra hge
      have := Int.tmod_nonneg m (not_lt.mp hge)
      omega
    have ht : Int.tdiv p m ≤ 0 := tdiv_nonpos_of_nonpos hpneg.le hm.le
    have hr1 : (Int.tmod p m : ℚ) ≤ -1 := by exact_mod_cast (show Int.tmod p m ≤ -1 by omega)
    have hr2 : -(m : ℚ) + 1 ≤ (Int.tmod p m : ℚ) := by
      exact_mod_cast (show -m + 1 ≤ Int.tmod p m by omega)
    have hup : y * (m : ℚ) < (Int.tdiv p m : ℚ) * (m : ℚ) := by linarith
    have hdn : ((Int.tdiv p m : ℚ) - 1) * (m : ℚ) < y * (m : ℚ) := by linarith
    have hy1 : y < (Int.tdiv p m : ℚ) := lt_of_mul_lt_mul_right hup hM.le
    have hy2 : (Int.tdiv p m : ℚ) - 1 < y := lt_of_mul_lt_mul_right hdn hM.le
    have htq : (Int.tdiv p m : ℚ) ≤ 0 := by exact_mod_cast ht
    have hyneg : ¬ (0 ≤ y) := by
      intro h0
      linarith
    unfold truncToLong
    rw [if_neg hyneg]
    exact Int.ceil_eq_iff.mpr ⟨hy2, hy1.le⟩
  · -- exact quotient
    have hx : (p : ℚ) / (m : ℚ) = ((Int.tdiv p m : Int) : ℚ) := by
      rw [hr] at hdq
      rw [div_eq_iff hM.ne']
      rw [← hdq]
      push_cast
      ring
    have hb : |Int.tdiv p m| ≤ 2 ^ 53 := by
      have := (quotLong_bounds p hm).2
      unfold quotLong at this
      omega
    have hy := hexact _ hx hb
    rw [hy, hx]
    unfold truncToLong
    split
    · exact Int.floor_intCast _
    · exact Int.ceil_intCast _
  · -- positive remainder: `p` is positive and `y` lies strictly between `t` and `t + 1`
    have hppos : 0 < p := by
      by_contra hle
      have := tmod_nonpos m (not_lt.mp hle)
      omega
    have ht : 0 ≤ Int.tdiv p m := Int.tdiv_nonneg hppos.le hm.le
    have hr1 : (1 : ℚ) ≤ (Int.tmod p m : ℚ) := by exact_mod_cast (show 1 ≤ Int.tmod p m by omega)
    have hr2 : (Int.tmod p m : ℚ) ≤ (m : ℚ) - 1 := by
      exact_mod_cast (show Int.tmod p m ≤ m - 1 by omega)
    have hdn : (Int.tdiv p m : ℚ) * (m : ℚ) < y * (m : ℚ) := by linarith
    have hup : y * (m : ℚ) < ((Int.tdiv p m : ℚ) + 1) * (m : ℚ) := by linarith
    have hy1 : (Int.tdiv p m : ℚ) < y := lt_of_mul_lt_mul_right hdn hM.le
    have hy2 : y < (Int.tdiv p m : ℚ) + 1 := lt_of_mul_lt_mul_right hup hM.le
    have htq : (0 : ℚ) ≤ (Int.tdiv p m : ℚ) := by exact_mod_cast ht
    have hypos : 0 ≤ y := by linarith
    unfold truncToLong
    rw [if_pos hypos]
    exact Int.floor_eq_iff.mpr ⟨hy1.le, hy2⟩

/-- The shift of register A leaves the operands of `p2` untouched. -/
theorem rawP2_shiftA (s : State) (p1 : Int) : rawP2 (shiftA s p1) = rawP2 s := rfl

/-- For an in-range state the four products and the two differences stay below the
largest multiplier times the first modulus. -/
theorem raw_bounds (s : State) (h : InRange s) :
    (0 ≤ a12 * s.s11 ∧ a12 * s.s11 < a12 * m1) ∧
    (0 ≤ a13n * s.s10 ∧ a13n * s.s10 < a12 * m1) ∧
    (0 ≤ a21 * s.s22 ∧ a21 * s.s22 < a12 * m1) ∧
    (0 ≤ a23n * s.s20 ∧ a23n * s.s20 < a12 * m1) ∧
    |rawP1 s| < a12 * m1 ∧ |rawP2 s| < a12 * m1 := by
  obtain ⟨⟨⟨a0, a1⟩, ⟨a2, a3⟩, _⟩, ⟨⟨b0, b1⟩, _, ⟨b4, b5⟩⟩⟩ := h
  simp only [rawP1, rawP2, a12, a13n, a21, a23n, m1, m2, abs_lt] at *
  omega

/-! ## The heap-level functions against the functions on one record -/

/-- Reading back what was just written. -/
theorem load_store_same (h : Heap) (s : Nat) (r : State) : load (store h s r) s = r := by
  simp [load, store]

/-- A write through `s` is not seen through another pointer. -/
theorem load_store_other (h : Heap) {s t : Nat} (r : State) (hts : t ≠ s) :
    load (store h s r) t = load h t := by
  simp [load, store, Function.update_noteq hts]

/-- The later of two writes through the same pointer wins. -/
theorem store_store (h : Heap) (s : Nat) (r r' : State) :
    store (store h s r) s r' = store h s r' := by
  simp [store]

/-- The heap-level `draw` returns what `draw` returns on the record behind the pointer,
and replaces that record by its successor. -/
theorem drawHeap_eq (s : Nat) (h : Heap) :
    drawHeap s h = ((draw (load h s)).1, store h s (draw (load h s)).2) := by
  unfold drawHeap
  simp only [load_store_same, store_store]
  rfl

/-- The heap-level `init` returns the fresh address and stores the seeded record there. -/
theorem initHeap_eq (h : Heap) :
    initHeap h = (h.next, store { h with next := h.next + 1 } h.next init) := by
  unfold initHeap
  simp only [load_store_same, store_store]
  rfl

/-- The allocation pointer is not moved by a write. -/
theorem store_next (h : Heap) (s : Nat) (r : State) : (store h s r).next = h.next := rfl

/-- After `a = init(); b = init();` the pointers differ and both records are seeded. -/
theorem twoInstances_spec (h0 : Heap) :
    (twoInstances h0).1 ≠ (twoInstances h0).2.1 ∧
    load (twoInstances h0).2.2 (twoInstances h0).1 = init ∧
    load (twoInstances h0).2.2 (twoInstances h0).2.1 = init := by
  unfold twoInstances
  simp only [initHeap_eq, store_next]
  refine ⟨by omega, ?_, load_store_same _ _ _⟩
  rw [load_store_other _ _ (by omega)]
  exact load_store_same _ _ _

/-- In a lockstep run of two distinct instances that start from equal records, both hold
the record reached by the same number of calls. -/
theorem lockstep_load {a b : Nat} (hab : a ≠ b) (r : State) (h : Heap)
    (ha : load h a = r) (hb : load h b = r) (n : Nat) :
    load (lockstep a b n h) a = drawN n r ∧ load (lockstep a b n h) b = drawN n r := by
  induction n with
  | zero => exact ⟨ha, hb⟩
  | succ k ih =>
    obtain ⟨iha, ihb⟩ := ih
    show load (lockstepRound a b (lockstep a b k h)).2 a = (draw (drawN k r)).2 ∧
      load (lockstepRound a b (lockstep a b k h)).2 b = (draw (drawN k r)).2
    unfold lockstepRound
    simp only [drawHeap_eq]
    constructor
    · rw [load_store_other _ _ hab, load_store_same, iha]
    · rw [load_store_same, load_store_other _ _ (Ne.symm hab), ihb]

/-- The two results of a lockstep round, in terms of the records at its start. -/
theorem lockstepRound_outputs {a b : Nat} (hab : a ≠ b) (h : Heap) :
    (lockstepRound a b h).1 = ((draw (load h a)).1, (draw (load h b)).1) := by
  unfold lockstepRound
  simp only [drawHeap_eq]
  rw [load_store_other _ _ (Ne.symm hab)]

/-! ## Claims -/

/-- C1: register A step of `draw`. For a state whose register A words are in
`[0, 4294967087)`, the new `s10` is the old `s11`, the new `s11` is the old `s12`, and the
new `s12` is `r`, where `p1 = 1403580 * s11 - 810728 * s10`, `k` is `p1 / 4294967087`
truncated toward zero, `r0 = p1 - k * 4294967087`, and `r = r0 + 4294967087` if `r0 < 0`,
else `r = r0`. -/
theorem draw_registerA (s : State) (_hA : InRangeA s) :
    (draw s).2.s10 = s.s11 ∧ (draw s).2.s11 = s.s12 ∧
    (draw s).2.s12 =
      (let p1 := 1403580 * s.s11 - 810728 * s.s10
       let k := Int.tdiv p1 4294967087
       let r0 := p1 - k * 4294967087
       if r0 < 0 then r0 + 4294967087 else r0) :=
  ⟨rfl, rfl, rfl⟩

/-- C1 at a state whose `p1` is negative (the corrective add is taken). -/
theorem draw_registerA_witness :
    InRangeA ⟨4294967086, 1, 2, 3, 4, 5⟩ ∧
    ((draw ⟨4294967086, 1, 2, 3, 4, 5⟩).2.s10 = 1 ∧
     (draw ⟨4294967086, 1, 2, 3, 4, 5⟩).2.s11 = 2 ∧
     (draw ⟨4294967086, 1, 2, 3, 4, 5⟩).2.s12 =
      (let p1 := 1403580 * 1 - 810728 * 4294967086
       let k := Int.tdiv p1 4294967087
       let r0 := p1 - k * 4294967087
       if r0 < 0 then r0 + 4294967087 else r0)) :=
  ⟨by decide, draw_registerA ⟨4294967086, 1, 2, 3, 4, 5⟩ (by decide)⟩

/-- C2: register B step of `draw`. For a state whose register B words are in
`[0, 4294944443)`, the new `s20` is the old `s21`, the new `s21` is the old `s22`, and the
new `s22` is the reduction of `p2 = 527612 * s22 - 1370589 * s20` (newest and oldest word)
with modulus 4294944443: subtract the truncated quotient times the modulus, then add the
modulus once if the result is negative. -/
theorem draw_registerB (s : State) (_hB : InRangeB s) :
    (draw s).2.s20 = s.s21 ∧ (draw s).2.s21 = s.s22 ∧
    (draw s).2.s22 =
      (let p2 := 527612 * s.s22 - 1370589 * s.s20
       let r0 := p2 - Int.tdiv p2 4294944443 * 4294944443
       if r0 < 0 then r0 + 4294944443 else r0) :=
  ⟨rfl, rfl, rfl⟩

/-- C2 at a state whose `p2` is negative. -/
theorem draw_registerB_witness :
    InRangeB ⟨1, 2, 3, 4294944442, 7, 1⟩ ∧
    ((draw ⟨1, 2, 3, 4294944442, 7, 1⟩).2.s20 = 7 ∧
     (draw ⟨1, 2, 3, 4294944442, 7, 1⟩).2.s21 = 1 ∧
     (draw ⟨1, 2, 3, 4294944442, 7, 1⟩).2.s22 =
      (let p2 := 527612 * 1 - 1370589 * 4294944442
       let r0 := p2 - Int.tdiv p2 4294944443 * 4294944443
       if r0 < 0 then r0 + 4294944443 else r0)) :=
  ⟨by decide, draw_registerB ⟨1, 2, 3, 4294944442, 7, 1⟩ (by decide)⟩

/-- C3: output of `draw`. For an in-range state, with `p1'` and `p2'` the values just
written into `s12` and `s22`, `draw` returns `p1' - p2' + 4294967087` if `p1' ≤ p2'`, and
`p1' - p2'` otherwise. -/
theorem draw_output (s : State) (_h : InRange s) :
    ((draw s).1 : Int) =
      if (draw s).2.s12 ≤ (draw s).2.s22
      then (draw s).2.s12 - (draw s).2.s22 + 4294967087
      else (draw s).2.s12 - (draw s).2.s22 := by
  rw [draw_fst_eq, drawValue_eq]
  rfl

/-- C3 at the seeded state (second branch) . -/
theorem draw_output_witness :
    InRange init ∧
    ((draw init).1 : Int) =
      if (draw init).2.s12 ≤ (draw init).2.s22
      then (draw init).2.s12 - (draw init).2.s22 + 4294967087
      else (draw init).2.s12 - (draw init).2.s22 :=
  ⟨by decide, draw_output init (by decide)⟩

/-- C4: `init` returns a state in which all six registers equal 12345. -/
theorem init_registers :
    init.s10 = 12345 ∧ init.s11 = 12345 ∧ init.s12 = 12345 ∧
    init.s20 = 12345 ∧ init.s21 = 12345 ∧ init.s22 = 12345 :=
  ⟨rfl, rfl, rfl, rfl, rfl, rfl⟩

/-- C5: golden first output. The first `draw` on the state returned by `init`, the state
(12345, 12345, 12345, 12345, 12345, 12345), returns 545508589 and leaves the state
(12345, 12345, 3023790853, 12345, 12345, 2478282264). -/
theorem draw_init_golden :
    init = ⟨12345, 12345, 12345, 12345, 12345, 12345⟩ ∧
    draw init = (545508589, ⟨12345, 12345, 3023790853, 12345, 12345, 2478282264⟩) := by
  decide

/-- C6, as the claim states it, fails: the in-range state (0, 0, 1, 0, 1, 0), in which
neither register is all-zero, makes `draw` write 0 into both `s12` and `s22` and return
4294967087, which is not below `m1`. -/
theorem draw_range_counterexample :
    InRange ⟨0, 0, 1, 0, 1, 0⟩ ∧
    (draw ⟨0, 0, 1, 0, 1, 0⟩).2 = ⟨0, 1, 0, 1, 0, 0⟩ ∧
    (draw ⟨0, 0, 1, 0, 1, 0⟩).1 = 4294967087 ∧
    ¬ ((draw ⟨0, 0, 1, 0, 1, 0⟩).1 : Int) < m1 := by
  decide

/-- C6, amended: for every in-range state the value returned by `draw` lies in
`[1, 4294967087]`: it is never negative, never zero and never above `m1`, and `m1` itself
is returned when the two freshly written words are equal. -/
theorem draw_range (s : State) (_h : InRange s) :
    1 ≤ (draw s).1 ∧ (draw s).1 ≤ 4294967087 ∧
    ((draw s).2.s12 = (draw s).2.s22 → (draw s).1 = 4294967087) := by
  have hb := drawValue_bounds s
  have he := draw_fst_eq s
  have hv := drawValue_eq s
  refine ⟨by omega, by simp only [m1] at hb; omega, ?_⟩
  intro heq
  have h12 : (drawState s).s12 = (drawState s).s22 := heq
  rw [h12] at hv
  simp only [combine, le_refl, if_true, sub_self, zero_add, m1] at hv
  omega

/-- C6 amended, at the seeded state. -/
theorem draw_range_witness :
    InRange init ∧
    (1 ≤ (draw init).1 ∧ (draw init).1 ≤ 4294967087 ∧
     ((draw init).2.s12 = (draw init).2.s22 → (draw init).1 = 4294967087)) :=
  ⟨by decide, draw_range init (by decide)⟩

/-- C7: state range invariant. The state returned by `init` has its register A words in
`[0, 4294967087)` and its register B words in `[0, 4294944443)`, `draw` preserves this,
and hence after any number `n` of calls of `draw` from `init` the words `s10 s11 s12` lie
in `[0, 4294967087)` and `s20 s21 s22` in `[0, 4294944443)`. -/
theorem state_range_invariant :
    InRange init ∧
    (∀ s : State, InRange s → InRange (draw s).2) ∧
    (∀ n : Nat,
      ((0 ≤ (drawN n init).s10 ∧ (drawN n init).s10 < 4294967087) ∧
       (0 ≤ (drawN n init).s11 ∧ (drawN n init).s11 < 4294967087) ∧
       (0 ≤ (drawN n init).s12 ∧ (drawN n init).s12 < 4294967087)) ∧
      ((0 ≤ (drawN n init).s20 ∧ (drawN n init).s20 < 4294944443) ∧
       (0 ≤ (drawN n init).s21 ∧ (drawN n init).s21 < 4294944443) ∧
       (0 ≤ (drawN n init).s22 ∧ (drawN n init).s22 < 4294944443))) :=
  ⟨by decide, fun s h => inRange_drawState s h, fun n => inRange_drawN n init (by decide)⟩

/-- C7 used at the seeded state: the state after the first call is in range. -/
theorem state_range_invariant_witness :
    InRange init ∧ InRange (draw init).2 :=
  ⟨state_range_invariant.1, state_range_invariant.2.1 init state_range_invariant.1⟩

/-- C8: no overflow on return. For every in-range state the value `draw` computes for its
result (`p1 - p2 + m1` or `p1 - p2`) is a non-negative integer strictly below `2^32`, so
its conversion to a 32-bit unsigned integer yields that same value. -/
theorem draw_return_no_overflow (s : State) (_h : InRange s) :
    drawValue s =
      (if (drawState s).s12 ≤ (drawState s).s22
       then (drawState s).s12 - (drawState s).s22 + m1
       else (drawState s).s12 - (drawState s).s22) ∧
    0 ≤ drawValue s ∧ drawValue s < 2 ^ 32 ∧
    ((draw s).1 : Int) = drawValue s := by
  have hb := drawValue_bounds s
  refine ⟨rfl, by omega, ?_, draw_fst_eq s⟩
  simp only [m1] at hb
  omega

/-- C8 at the state whose result is the largest possible, `m1`. -/
theorem draw_return_no_overflow_witness :
    InRange ⟨0, 0, 1, 0, 1, 0⟩ ∧
    (drawValue ⟨0, 0, 1, 0, 1, 0⟩ =
      (if (drawState ⟨0, 0, 1, 0, 1, 0⟩).s12 ≤ (drawState ⟨0, 0, 1, 0, 1, 0⟩).s22
       then (drawState ⟨0, 0, 1, 0, 1, 0⟩).s12 - (drawState ⟨0, 0, 1, 0, 1, 0⟩).s22 + m1
       else (drawState ⟨0, 0, 1, 0, 1, 0⟩).s12 - (drawState ⟨0, 0, 1, 0, 1, 0⟩).s22) ∧
     0 ≤ drawValue ⟨0, 0, 1, 0, 1, 0⟩ ∧ drawValue ⟨0, 0, 1, 0, 1, 0⟩ < 2 ^ 32 ∧
     ((draw ⟨0, 0, 1, 0, 1, 0⟩).1 : Int) = drawValue ⟨0, 0, 1, 0, 1, 0⟩) :=
  ⟨by decide, draw_return_no_overflow ⟨0, 0, 1, 0, 1, 0⟩ (by decide)⟩

/-- C9, as the claim states it, fails: there is no in-range state with a negative
`p1 = 1403580 * s11 - 810728 * s10` for which the value `draw` writes to `s12` differs
from the floor-division remainder of `p1` modulo 4294967087. -/
theorem reduction_differs_from_floor_refuted :
    ¬ ∃ s : State, InRange s ∧ 1403580 * s.s11 - 810728 * s.s10 < 0 ∧
        (draw s).2.s12 ≠ floorMod (1403580 * s.s11 - 810728 * s.s10) 4294967087 := by
  rintro ⟨s, _, _, hne⟩
  exact hne (reduce_eq_floorMod (rawP1 s) m1_pos)

/-- C9, amended: for every in-range state the two-step reduction used by `draw` gives the
floor-division remainder, also when `p1` or `p2` is negative: the value written to `s12`
is the floor remainder of `p1` modulo 4294967087 and the value written to `s22` is the
floor remainder of `p2` modulo 4294944443. What differs for a negative `p1` is the
quotient `k` and the value `p1 - k * m1` before the corrective add: at the in-range state
(1, 0, 0, 0, 0, 0), `p1 = -810728`, the truncated quotient is 0 against the floor
quotient -1, and `p1 - k * m1 = -810728` against the floor remainder 4294156359. -/
theorem reduction_eq_floor (s : State) (_h : InRange s) :
    ((draw s).2.s12 = floorMod (1403580 * s.s11 - 810728 * s.s10) 4294967087 ∧
     (draw s).2.s22 = floorMod (527612 * s.s22 - 1370589 * s.s20) 4294944443) ∧
    (InRange ⟨1, 0, 0, 0, 0, 0⟩ ∧ rawP1 ⟨1, 0, 0, 0, 0, 0⟩ = -810728 ∧
     quotLong (-810728) m1 = 0 ∧ Int.fdiv (-810728) m1 = -1 ∧
     -810728 - quotLong (-810728) m1 * m1 = -810728 ∧
     floorMod (-810728) m1 = 4294156359 ∧
     (draw ⟨1, 0, 0, 0, 0, 0⟩).2.s12 = 4294156359) :=
  ⟨⟨reduce_eq_floorMod (rawP1 s) m1_pos, reduce_eq_floorMod (rawP2 s) m2_pos⟩, by decide⟩

/-- C9 amended, at a state whose `p1` and `p2` are both negative. -/
theorem reduction_eq_floor_witness :
    InRange ⟨4294967086, 1, 2, 4294944442, 7, 1⟩ ∧
    (((draw ⟨4294967086, 1, 2, 4294944442, 7, 1⟩).2.s12 =
        floorMod (1403580 * 1 - 810728 * 4294967086) 4294967087 ∧
      (draw ⟨4294967086, 1, 2, 4294944442, 7, 1⟩).2.s22 =
        floorMod (527612 * 1 - 1370589 * 4294944442) 4294944443) ∧
     (InRange ⟨1, 0, 0, 0, 0, 0⟩ ∧ rawP1 ⟨1, 0, 0, 0, 0, 0⟩ = -810728 ∧
      quotLong (-810728) m1 = 0 ∧ Int.fdiv (-810728) m1 = -1 ∧
      -810728 - quotLong (-810728) m1 * m1 = -810728 ∧
      floorMod (-810728) m1 = 4294156359 ∧
      (draw ⟨1, 0, 0, 0, 0, 0⟩).2.s12 = 4294156359)) :=
  ⟨by decide, reduction_eq_floor ⟨4294967086, 1, 2, 4294944442, 7, 1⟩ (by decide)⟩

/-- C10: non-degeneracy from the canonical seed. For every `n`, after `n` calls of `draw`
starting from the state returned by `init`, register A (`s10 s11 s12`) is not all-zero
and register B (`s20 s21 s22`) is not all-zero; in particular this holds for each of the
first `10^6` draws. -/
theorem init_never_degenerate :
    (∀ n : Nat,
      ¬ ((drawN n init).s10 = 0 ∧ (drawN n init).s11 = 0 ∧ (drawN n init).s12 = 0) ∧
      ¬ ((drawN n init).s20 = 0 ∧ (drawN n init).s21 = 0 ∧ (drawN n init).s22 = 0)) ∧
    (∀ n : Nat, n ≤ 10 ^ 6 →
      ¬ ((drawN n init).s10 = 0 ∧ (drawN n init).s11 = 0 ∧ (drawN n init).s12 = 0) ∧
      ¬ ((drawN n init).s20 = 0 ∧ (drawN n init).s21 = 0 ∧ (drawN n init).s22 = 0)) :=
  ⟨fun n => not_allZero_drawN n init (by decide) (by decide) (by decide),
   fun n _ => not_allZero_drawN n init (by decide) (by decide) (by decide)⟩

/-- C10 used at `n = 1`: after the first draw neither register is all-zero. -/
theorem init_never_degenerate_witness :
    1 ≤ 10 ^ 6 ∧
    (¬ ((drawN 1 init).s10 = 0 ∧ (drawN 1 init).s11 = 0 ∧ (drawN 1 init).s12 = 0) ∧
     ¬ ((drawN 1 init).s20 = 0 ∧ (drawN 1 init).s21 = 0 ∧ (drawN 1 init).s22 = 0)) :=
  ⟨by decide, init_never_degenerate.2 1 (by decide)⟩

/-- C11: the all-zero state is a fixed point of `draw`. If all six registers are 0 before
`draw`, all six are 0 after it; and a register whose three words are all 0 stays all 0
whatever the other register holds. -/
theorem allZero_fixed_point (s : State) :
    ((s.s10 = 0 ∧ s.s11 = 0 ∧ s.s12 = 0 ∧ s.s20 = 0 ∧ s.s21 = 0 ∧ s.s22 = 0) →
      ((draw s).2.s10 = 0 ∧ (draw s).2.s11 = 0 ∧ (draw s).2.s12 = 0 ∧
       (draw s).2.s20 = 0 ∧ (draw s).2.s21 = 0 ∧ (draw s).2.s22 = 0)) ∧
    ((s.s10 = 0 ∧ s.s11 = 0 ∧ s.s12 = 0) →
      ((draw s).2.s10 = 0 ∧ (draw s).2.s11 = 0 ∧ (draw s).2.s12 = 0)) ∧
    ((s.s20 = 0 ∧ s.s21 = 0 ∧ s.s22 = 0) →
      ((draw s).2.s20 = 0 ∧ (draw s).2.s21 = 0 ∧ (draw s).2.s22 = 0)) := by
  refine ⟨?_, fun hA => allZeroA_drawState s hA, fun hB => allZeroB_drawState s hB⟩
  rintro ⟨h10, h11, h12, h20, h21, h22⟩
  obtain ⟨a0, a1, a2⟩ := allZeroA_drawState s ⟨h10, h11, h12⟩
  obtain ⟨b0, b1, b2⟩ := allZeroB_drawState s ⟨h20, h21, h22⟩
  exact ⟨a0, a1, a2, b0, b1, b2⟩

/-- C11 at the all-zero state, at a state whose register A alone is all-zero, and at a
state whose register B alone is all-zero. -/
theorem allZero_fixed_point_witness :
    (draw ⟨0, 0, 0, 0, 0, 0⟩).2 = ⟨0, 0, 0, 0, 0, 0⟩ ∧
    ((draw ⟨0, 0, 0, 5, 6, 7⟩).2.s10 = 0 ∧ (draw ⟨0, 0, 0, 5, 6, 7⟩).2.s11 = 0 ∧
     (draw ⟨0, 0, 0, 5, 6, 7⟩).2.s12 = 0) ∧
    ((draw ⟨5, 6, 7, 0, 0, 0⟩).2.s20 = 0 ∧ (draw ⟨5, 6, 7, 0, 0, 0⟩).2.s21 = 0 ∧
     (draw ⟨5, 6, 7, 0, 0, 0⟩).2.s22 = 0) := by
  have h := (allZero_fixed_point ⟨0, 0, 0, 0, 0, 0⟩).1 (by decide)
  refine ⟨?_, (allZero_fixed_point ⟨0, 0, 0, 5, 6, 7⟩).2.1 (by decide),
    (allZero_fixed_point ⟨5, 6, 7, 0, 0, 0⟩).2.2 (by decide)⟩
  obtain ⟨a0, a1, a2, b0, b1, b2⟩ := h
  generalize (draw ⟨0, 0, 0, 0, 0, 0⟩).2 = r at *
  cases r
  simp only [State.mk.injEq]
  exact ⟨a0, a1, a2, b0, b1, b2⟩

/-- C12: lockstep determinism. The result of `draw` and the record it leaves behind its
pointer depend on the record behind that pointer alone, not on the address or on anything
else in memory, and `draw` changes no other record. So two generators created
independently by `init` (two calls, two distinct addresses in one heap) and advanced in
lockstep return the same output in every round `n`, namely output number `n` of the
seeded sequence, and hold equal register values after every round. -/
theorem lockstep_determinism (h0 : Heap) (a b : Nat) (h : Heap)
    (hinst : twoInstances h0 = (a, b, h)) (n : Nat) :
    (a ≠ b ∧
     (lockstepRound a b (lockstep a b n h)).1.1 = (lockstepRound a b (lockstep a b n h)).1.2 ∧
     (lockstepRound a b (lockstep a b n h)).1.1 = output n init ∧
     load (lockstep a b n h) a = load (lockstep a b n h) b ∧
     load (lockstep a b n h) a = drawN n init) ∧
    (∀ (g g' : Heap) (s s' : Nat), load g s = load g' s' →
      (drawHeap s g).1 = (drawHeap s' g').1 ∧
      load (drawHeap s g).2 s = load (drawHeap s' g').2 s') ∧
    (∀ (g : Heap) (s t : Nat), t ≠ s → load (drawHeap s g).2 t = load g t) := by
  have hspec := twoInstances_spec h0
  rw [hinst] at hspec
  obtain ⟨hab, ha, hb⟩ := hspec
  obtain ⟨la, lb⟩ := lockstep_load hab init h ha hb n
  refine ⟨⟨hab, ?_, ?_, la.trans lb.symm, la⟩, ?_, ?_⟩
  · rw [lockstepRound_outputs hab, la, lb]
  · rw [lockstepRound_outputs hab, la]
    rfl
  · intro g g' s s' e
    rw [drawHeap_eq, drawHeap_eq, load_store_same, load_store_same, e]
    exact ⟨rfl, rfl⟩
  · intro g s t hts
    rw [drawHeap_eq]
    exact load_store_other _ _ hts

/-- C12 on a heap of zeroed records with nothing handed out yet: the two calls of `init`
return the addresses 0 and 1, and the third lockstep round gives both callers the same
result; and `draw` gives the same result on the seeded record at address 0 of one heap
and at address 7 of another heap that differs everywhere else. -/
theorem lockstep_determinism_witness :
    twoInstances ⟨fun _ => ⟨0, 0, 0, 0, 0, 0⟩, 0⟩ =
      (0, 1, (twoInstances ⟨fun _ => ⟨0, 0, 0, 0, 0, 0⟩, 0⟩).2.2) ∧
    (lockstepRound 0 1
        (lockstep 0 1 2 (twoInstances ⟨fun _ => ⟨0, 0, 0, 0, 0, 0⟩, 0⟩).2.2)).1.1 =
      (lockstepRound 0 1
        (lockstep 0 1 2 (twoInstances ⟨fun _ => ⟨0, 0, 0, 0, 0, 0⟩, 0⟩).2.2)).1.2 ∧
    (load ⟨fun _ => init, 0⟩ 0 = load ⟨fun i => if i = 7 then init else ⟨1, 2, 3, 4, 5, 6⟩, 9⟩ 7 ∧
     (drawHeap 0 ⟨fun _ => init, 0⟩).1 =
       (drawHeap 7 ⟨fun i => if i = 7 then init else ⟨1, 2, 3, 4, 5, 6⟩, 9⟩).1) :=
  ⟨rfl,
   (lockstep_determinism ⟨fun _ => ⟨0, 0, 0, 0, 0, 0⟩, 0⟩ 0 1 _ rfl 2).1.2.1,
   rfl,
   ((lockstep_determinism ⟨fun _ => ⟨0, 0, 0, 0, 0, 0⟩, 0⟩ 0 1 _ rfl 2).2.1
      ⟨fun _ => init, 0⟩ ⟨fun i => if i = 7 then init else ⟨1, 2, 3, 4, 5, 6⟩, 9⟩ 0 7 rfl).1⟩

/-- C13: exactness of the double arithmetic. For every in-range state every intermediate
value of `draw` (the products `1403580 * s11`, `810728 * s10`, `527612 * s22`,
`1370589 * s20`, the differences `p1` and `p2`, the truncated quotients `k`, and the
products `k * m1` and `k * m2`) is an integer of absolute value below `2^53`, so 53 bits
of exact integer precision hold each of them; and the one operation whose exact value is
not an integer, the division `p / m`, converts to the same `long` as exact truncating
division whatever way it is rounded. `p2` is computed after register A has been shifted,
which does not change its operands. -/
theorem double_arithmetic_exact (s : State) (h : InRange s) :
    (|a12 * s.s11| < 2 ^ 53 ∧ |a13n * s.s10| < 2 ^ 53 ∧
     |a21 * s.s22| < 2 ^ 53 ∧ |a23n * s.s20| < 2 ^ 53) ∧
    (|rawP1 s| < 2 ^ 53 ∧ |rawP2 s| < 2 ^ 53 ∧
     rawP2 (shiftA s (reduce (rawP1 s) m1)) = rawP2 s) ∧
    (|quotLong (rawP1 s) m1| < 2 ^ 53 ∧ |quotLong (rawP2 s) m2| < 2 ^ 53) ∧
    (|quotLong (rawP1 s) m1 * m1| < 2 ^ 53 ∧ |quotLong (rawP2 s) m2 * m2| < 2 ^ 53) ∧
    (∀ y : ℚ, RoundsTo ((rawP1 s : ℚ) / (m1 : ℚ)) y →
      truncToLong y = quotLong (rawP1 s) m1) ∧
    (∀ y : ℚ, RoundsTo ((rawP2 s : ℚ) / (m2 : ℚ)) y →
      truncToLong y = quotLong (rawP2 s) m2) := by
  obtain ⟨⟨c0, c1⟩, ⟨c2, c3⟩, ⟨c4, c5⟩, ⟨c6, c7⟩, hp1, hp2⟩ := raw_bounds s h
  have hbig : a12 * m1 < 2 ^ 53 := by decide
  have q1 := quotLong_bounds (rawP1 s) m1_pos
  have q2 := quotLong_bounds (rawP2 s) m2_pos
  have hp1b : |rawP1 s| < 2 ^ 53 := lt_trans hp1 hbig
  have hp2b : |rawP2 s| < 2 ^ 53 := lt_trans hp2 hbig
  refine ⟨⟨?_, ?_, ?_, ?_⟩, ⟨hp1b, hp2b, rfl⟩, ⟨?_, ?_⟩, ⟨?_, ?_⟩,
    fun y hy => truncToLong_rounded_quot (rawP1 s) m1_pos hp1b y hy,
    fun y hy => truncToLong_rounded_quot (rawP2 s) m2_pos hp2b y hy⟩
  · rw [abs_of_nonneg c0]; exact lt_trans c1 hbig
  · rw [abs_of_nonneg c2]; exact lt_trans c3 hbig
  · rw [abs_of_nonneg c4]; exact lt_trans c5 hbig
  · rw [abs_of_nonneg c6]; exact lt_trans c7 hbig
  · exact lt_of_le_of_lt q1.2 hp1b
  · exact lt_of_le_of_lt q2.2 hp2b
  · exact lt_of_le_of_lt q1.1 hp1b
  · exact lt_of_le_of_lt q2.1 hp2b

/-- C13 at the in-range state with the largest `p1`, and the division of that `p1`
rounded without error. -/
theorem double_arithmetic_exact_witness :
    InRange ⟨0, 4294967086, 0, 4294944442, 0, 0⟩ ∧
    |rawP1 ⟨0, 4294967086, 0, 4294944442, 0, 0⟩| < 2 ^ 53 ∧
    truncToLong ((rawP1 ⟨0, 4294967086, 0, 4294944442, 0, 0⟩ : ℚ) / (m1 : ℚ)) =
      quotLong (rawP1 ⟨0, 4294967086, 0, 4294944442, 0, 0⟩) m1 :=
  ⟨by decide,
   (double_arithmetic_exact ⟨0, 4294967086, 0, 4294944442, 0, 0⟩ (by decide)).2.1.1,
   (double_arithmetic_exact ⟨0, 4294967086, 0, 4294944442, 0, 0⟩ (by decide)).2.2.2.2.1 _
     (roundsTo_self _)⟩

/-- C14: exact characterisation of the output. For every in-range state the result of
`draw` lies in `[1, 4294967087]`, is congruent to (new `s12` - new `s22`) modulo
4294967087, is never 0, and equals 4294967087 exactly when the new `s12` equals the new
`s22`. -/
theorem draw_output_characterisation (s : State) (_h : InRange s) :
    (1 ≤ (draw s).1 ∧ (draw s).1 ≤ 4294967087) ∧
    ((draw s).1 : Int) % 4294967087 = ((draw s).2.s12 - (draw s).2.s22) % 4294967087 ∧
    (draw s).1 ≠ 0 ∧
    ((draw s).1 = 4294967087 ↔ (draw s).2.s12 = (draw s).2.s22) := by
  have hb := drawValue_bounds s
  have he := draw_fst_eq s
  have hv := drawValue_eq s
  have a1 : (drawState s).s12 < m1 := reduce_lt (rawP1 s) m1_pos
  have b0 : 0 ≤ (drawState s).s22 := reduce_nonneg (rawP2 s) m2_pos
  have d12 : (draw s).2.s12 = (drawState s).s12 := rfl
  have d22 : (draw s).2.s22 = (drawState s).s22 := rfl
  rw [d12, d22]
  generalize (drawState s).s12 = a at *
  generalize (drawState s).s22 = b at *
  simp only [m1] at hb a1
  unfold combine at hv
  simp only [m1] at hv
  refine ⟨⟨by omega, by omega⟩, ?_, by omega, ?_⟩
  · rw [he, hv]
    split
    · exact Int.add_emod_self
    · rfl
  · split at hv <;> constructor <;> intro h <;> omega

/-- C14 at the state (0, 0, 1, 0, 1, 0), whose result is 4294967087. -/
theorem draw_output_characterisation_witness :
    InRange ⟨0, 0, 1, 0, 1, 0⟩ ∧
    ((1 ≤ (draw ⟨0, 0, 1, 0, 1, 0⟩).1 ∧ (draw ⟨0, 0, 1, 0, 1, 0⟩).1 ≤ 4294967087) ∧
     ((draw ⟨0, 0, 1, 0, 1, 0⟩).1 : Int) % 4294967087 =
       ((draw ⟨0, 0, 1, 0, 1, 0⟩).2.s12 - (draw ⟨0, 0, 1, 0, 1, 0⟩).2.s22) % 4294967087 ∧
     (draw ⟨0, 0, 1, 0, 1, 0⟩).1 ≠ 0 ∧
     ((draw ⟨0, 0, 1, 0, 1, 0⟩).1 = 4294967087 ↔
       (draw ⟨0, 0, 1, 0, 1, 0⟩).2.s12 = (draw ⟨0, 0, 1, 0, 1, 0⟩).2.s22)) :=
  ⟨by decide, draw_output_characterisation ⟨0, 0, 1, 0, 1, 0⟩ (by decide)⟩

/-- C15: the state transition of `draw` is injective on in-range states. If two in-range
states have the same six register values after `draw`, they had the same six register
values before it; the old `s10` and `s20` are recoverable because 810728 is coprime to
4294967087 and 1370589 is coprime to 4294944443. -/
theorem draw_injective (s t : State) (hs : InRange s) (ht : InRange t)
    (h : (draw s).2.s10 = (draw t).2.s10 ∧ (draw s).2.s11 = (draw t).2.s11 ∧
         (draw s).2.s12 = (draw t).2.s12 ∧ (draw s).2.s20 = (draw t).2.s20 ∧
         (draw s).2.s21 = (draw t).2.s21 ∧ (draw s).2.s22 = (draw t).2.s22) :
    (s.s10 = t.s10 ∧ s.s11 = t.s11 ∧ s.s12 = t.s12 ∧
     s.s20 = t.s20 ∧ s.s21 = t.s21 ∧ s.s22 = t.s22) ∧
    Int.gcd a13n m1 = 1 ∧ Int.gcd a23n m2 = 1 := by
  have e : drawState s = drawState t := by
    obtain ⟨h10, h11, h12, h20, h21, h22⟩ := h
    have d : ∀ u : State, (draw u).2 = drawState u := fun _ => rfl
    simp only [d] at h10 h11 h12 h20 h21 h22
    generalize drawState s = x at *
    generalize drawState t = y at *
    cases x
    cases y
    simp only [State.mk.injEq]
    exact ⟨h10, h11, h12, h20, h21, h22⟩
  have e2 := drawState_injective s t hs ht e
  subst e2
  exact ⟨⟨rfl, rfl, rfl, rfl, rfl, rfl⟩, by decide, by decide⟩

/-- C15 at two presentations of the seeded state. -/
theorem draw_injective_witness :
    (InRange init ∧ InRange ⟨12345, 12345, 12345, 12345, 12345, 12345⟩) ∧
    ((init.s10 = 12345 ∧ init.s11 = 12345 ∧ init.s12 = 12345 ∧
      init.s20 = 12345 ∧ init.s21 = 12345 ∧ init.s22 = 12345) ∧
     Int.gcd a13n m1 = 1 ∧ Int.gcd a23n m2 = 1) :=
  ⟨by decide, draw_injective init ⟨12345, 12345, 12345, 12345, 12345, 12345⟩
    (by decide) (by decide) (by decide)⟩

/-- C16: the all-zero state is the only fixed point. For every in-range state in which at
least one of the six registers is non-zero, the state after `draw` differs from the state
before; in particular the first call changes the state returned by `init`, and a second
call changes it again (the call is not idempotent); the all-zero state itself is left
unchanged. -/
theorem allZero_only_fixed_point :
    (∀ s : State, InRange s →
      ¬ (s.s10 = 0 ∧ s.s11 = 0 ∧ s.s12 = 0 ∧ s.s20 = 0 ∧ s.s21 = 0 ∧ s.s22 = 0) →
      (draw s).2 ≠ s) ∧
    (draw init).2 ≠ init ∧
    (draw (draw init).2).2 ≠ (draw init).2 ∧
    (draw ⟨0, 0, 0, 0, 0, 0⟩).2 = ⟨0, 0, 0, 0, 0, 0⟩ := by
  refine ⟨?_, by decide, by decide, by decide⟩
  intro s hs hnz hfix
  obtain ⟨⟨a0, a1, a2⟩, ⟨b0, b1, b2⟩⟩ := fixed_point_allZero s hs hfix
  exact hnz ⟨a0, a1, a2, b0, b1, b2⟩

/-- C16 at the in-range state (0, 0, 0, 0, 0, 1), all of whose words but one are zero. -/
theorem allZero_only_fixed_point_witness :
    InRange ⟨0, 0, 0, 0, 0, 1⟩ ∧ (draw ⟨0, 0, 0, 0, 0, 1⟩).2 ≠ ⟨0, 0, 0, 0, 0, 1⟩ :=
  ⟨by decide, allZero_only_fixed_point.1 ⟨0, 0, 0, 0, 0, 1⟩ (by decide) (by decide)⟩

/-- C17: eventual periodicity. The states obtained by applying `draw` repeatedly to the
state returned by `init` repeat: there are `i < j` such that the six registers after `i`
draws equal the six registers after `j` draws, and from step `i` on the states and the
outputs repeat with period `j - i`. -/
theorem eventually_periodic :
    ∃ i j : Nat, i < j ∧ drawN i init = drawN j init ∧
      ∀ k : Nat, drawN (i + k + (j - i)) init = drawN (i + k) init ∧
        output (i + k + (j - i)) init = output (i + k) init := by
  obtain ⟨i, j, hij, he⟩ :=
    finite_inRange.exists_lt_map_eq_of_forall_mem
      (fun n : Nat => inRange_drawN n init (by decide))
  refine ⟨i, j, hij, he, ?_⟩
  have key : ∀ k : Nat, drawN (i + k + (j - i)) init = drawN (i + k) init := by
    intro k
    have e : i + k + (j - i) = j + k := by omega
    rw [e, drawN_add j k, drawN_add i k]
    exact congrArg (drawN k) he.symm
  intro k
  exact ⟨key k, congrArg (fun s => (draw s).1) (key k)⟩

/-- C18, as the claim states it, fails: the product `1403580 * 4294967087` is
6028329903971460, which is not below `10^13`. -/
theorem product_magnitude_counterexample :
    a12 * m1 = 6028329903971460 ∧ ¬ (a12 * m1 < 10 ^ 13) := by
  decide

/-- C18, amended: the range needed for the intermediate products of `draw` is about `m1`
times the largest multiplier. For every in-range state each of the four products lies in
`[0, a12 * m1)`, `a12 = 1403580` is the largest of the four multipliers, an in-range state
reaches a product above `6 * 10^15`, and the bound `1403580 * 4294967087` is
6028329903971460, about `6 * 10^15`: above `6 * 10^15`, below `6.1 * 10^15` and below
`2^53`. -/
theorem product_magnitude (s : State) (h : InRange s) :
    ((0 ≤ a12 * s.s11 ∧ a12 * s.s11 < a12 * m1) ∧
     (0 ≤ a13n * s.s10 ∧ a13n * s.s10 < a12 * m1) ∧
     (0 ≤ a21 * s.s22 ∧ a21 * s.s22 < a12 * m1) ∧
     (0 ≤ a23n * s.s20 ∧ a23n * s.s20 < a12 * m1)) ∧
    (a13n ≤ a12 ∧ a21 ≤ a12 ∧ a23n ≤ a12) ∧
    (InRange ⟨0, 4294967086, 0, 0, 0, 0⟩ ∧
     6 * 10 ^ 15 < a12 * (State.mk 0 4294967086 0 0 0 0).s11) ∧
    (a12 * m1 = 6028329903971460 ∧ 6 * 10 ^ 15 < a12 * m1 ∧
     a12 * m1 < 61 * 10 ^ 14 ∧ a12 * m1 < 2 ^ 53) := by
  obtain ⟨c0, c1, c2, c3, _, _⟩ := raw_bounds s h
  exact ⟨⟨c0, c1, c2, c3⟩, by decide, by decide, by decide⟩

/-- C18 amended, at the in-range state with the largest first product. -/
theorem product_magnitude_witness :
    InRange ⟨0, 4294967086, 0, 0, 0, 0⟩ ∧
    (0 ≤ a12 * (State.mk 0 4294967086 0 0 0 0).s11 ∧
     a12 * (State.mk 0 4294967086 0 0 0 0).s11 < a12 * m1) :=
  ⟨by decide, (product_magnitude ⟨0, 4294967086, 0, 0, 0, 0⟩ (by decide)).1.1⟩

end MRG32k3a
